import Mathlib

/-!
# Verification of the `errortree` library (speijnik/go-errortree)

Shallow embedding of the Go sources `errortree.go`, `tree.go` and
`formatter.go`.

Modelling conventions:

* Go heap pointers `*Tree` are modelled by an arena: a `Heap` is a list of
  `Tree` records and a pointer is the index (`Nat`) of its record.  Pointer
  identity (used by the cycle protection of `flatten`) is index equality.
* A Go `error` interface value is `Option Err`: `none` is the nil interface,
  `Err.leaf msg` is an opaque non-tree error whose `Error()` method returns
  `msg`, and `Err.treeRef t` is a `*Tree` pointer stored in an `error`.
* Go's `map[string]error` is modelled as an association list iterated in list
  order (Go's map iteration order is unspecified; a fixed order is one of the
  admissible behaviours).  A `nil` Go map and an empty map are observationally
  equivalent for all reads performed by this library, so the model identifies
  them and `getErrors` needs no lazy-initialisation write; `getDelimiter`'s
  lazy write (empty string replaced by the default delimiter) is modelled
  faithfully because it is observable on the struct field.
* The `Formatter` function field only ever holds the built-in
  `SimpleFormatter` in the code under verification, so the field is modelled
  as `Option Formatter` with `Formatter.simple` denoting that function
  (`none` models the zero value of the field).
* `panic` in the mutation API is modelled by the `MutResult.panicked`
  constructor carrying the panic message.
* The recursion of `flatten` is over an arbitrary pointer graph, so the model
  adds an explicit fuel parameter; fuel-independence (termination of the Go
  recursion) is proved below.
-/

namespace Errortree

/-- A non-nil Go `error` value: an opaque leaf error carrying its `Error()`
message, or a `*Tree` pointer (arena index) stored in the interface. -/
inductive Err where
  | leaf (msg : String)
  | treeRef (addr : Nat)
deriving DecidableEq, Repr

/-- The built-in formatter function values that can inhabit the `Formatter`
field of a tree; only `SimpleFormatter` occurs in the sources. -/
inductive Formatter where
  | simple
deriving DecidableEq, Repr

/-- The `Tree` struct of `tree.go`: children map, delimiter, formatter.
The zero value of the struct is `⟨[], "", none⟩`. -/
structure Tree where
  Errors : List (String × Err)
  Delimiter : String
  Formatter : Option Formatter
deriving DecidableEq, Repr

instance : Inhabited Tree := ⟨⟨[], "", none⟩⟩

/-- The arena of allocated `Tree` records; a `*Tree` pointer is an index. -/
abbrev Heap := List Tree

/-- Dereference a pointer: the tree record at index `t`.  An out-of-range
index yields the zero value of the struct; it never occurs for the pointers
the library itself creates. -/
def heapGet : Heap → Nat → Tree
  | [], _ => default
  | obj :: _, 0 => obj
  | _ :: rest, n + 1 => heapGet rest n

/-- Go map read `m[key]` on the association-list model. -/
def lookupKey (m : List (String × Err)) (k : String) : Option Err :=
  (m.find? (fun kv => kv.1 == k)).map (·.2)

/-- Go map write `m[key] = v` on the association-list model: replace the
binding if the key is present, otherwise append it. -/
def insertMap (m : List (String × Err)) (k : String) (v : Err) :
    List (String × Err) :=
  if m.any (fun kv => kv.1 == k) then
    m.map (fun kv => if kv.1 == k then (k, v) else kv)
  else
    m ++ [(k, v)]

/-- `DefaultDelimiter` of `errortree.go`. -/
def DefaultDelimiter : String := ":"

/-- Lexicographic comparison of character lists: Go's `<=` on strings
(UTF-8 byte order coincides with code-point order).  Defined directly so that
the kernel can evaluate it (`String`'s library order is well-founded recursion
and does not reduce); it is proved below to agree with `String`'s `≤`. -/
def strLeB : List Char → List Char → Bool
  | [], _ => true
  | _ :: _, [] => false
  | a :: as, b :: bs =>
    if a < b then true else if b < a then false else strLeB as bs

/-- Go's string comparison `a <= b`. -/
def strLe (a b : String) : Bool := strLeB a.data b.data

instance : DecidableRel (fun a b : String => strLe a b = true) :=
  fun a b => inferInstanceAs (Decidable (strLe a b = true))

/-- `sort.Strings` of the Go standard library: sorts ascending.  Modelled by
insertion sort; the key lists sorted by this library are duplicate-free, so
every correct sorting algorithm produces this list. -/
def sortStrings (l : List String) : List String :=
  List.insertionSort (fun a b => strLe a b = true) l

/-- `GetTree` of `tree.go`: the type assertion `err.(*Tree)`, returning the
pointer when the error is a tree.  (`tree = none` models `isTree = false`.) -/
def GetTree : Option Err → Option Nat
  | some (.treeRef t) => some t
  | _ => none

/-- `(t *Tree) getErrors()` of `tree.go`.  The lazy replacement of a nil map
by an empty map is invisible in the model (nil and empty maps are identified),
so this is a plain field read. -/
def getErrors (t : Tree) : List (String × Err) :=
  t.Errors

/-- `(t *Tree) getDelimiter()` of `tree.go`: if the field is the empty string
it is set to `DefaultDelimiter` (an observable write), and the field value is
returned. -/
def getDelimiter (heap : Heap) (t : Nat) : Heap × String :=
  let obj := heapGet heap t
  if obj.Delimiter = "" then
    (heap.set t { obj with Delimiter := DefaultDelimiter }, DefaultDelimiter)
  else
    (heap, obj.Delimiter)

/-- `(t *Tree) getFormatter()` of `tree.go`: lazily installs the simple
formatter. -/
def getFormatter (heap : Heap) (t : Nat) : Heap × Formatter :=
  let obj := heapGet heap t
  match obj.Formatter with
  | none => (heap.set t { obj with Formatter := some .simple }, .simple)
  | some f => (heap, f)

/-- `New()` of `tree.go`. -/
def New : Tree :=
  { Errors := [], Delimiter := DefaultDelimiter, Formatter := some .simple }

/-- The `Error()` method of an error value stored in a flattened map.  Every
value placed in a flattened map by `flatten` is a leaf, so only the leaf case
is ever exercised by the formatter; a tree value would dispatch to
`Tree.Error` and is rendered as the empty string here. -/
def errMessage : Err → String
  | .leaf m => m
  | .treeRef _ => ""

/-- `SimpleFormatter` of `formatter.go`: count, plural suffix, keys sorted
with `sort.Strings`, one `* key: message` line per entry, joined by
newlines. -/
def SimpleFormatter (errorMap : List (String × Err)) : String :=
  let pluralSuffix := if errorMap.length ≠ 1 then "s" else ""
  let keys := sortStrings (errorMap.map Prod.fst)
  let wrappedErrors := keys.map
    (fun key => "* " ++ key ++ ": " ++ errMessage ((lookupKey errorMap key).getD (.leaf "")))
  toString errorMap.length ++ " error" ++ pluralSuffix ++ " occurred:\n\n" ++
    String.intercalate "\n" wrappedErrors

/-- Apply a formatter value to a flattened map. -/
def applyFormatter : Formatter → List (String × Err) → String
  | .simple, m => SimpleFormatter m

/-- Result of a mutation API call: either a normal return (with the updated
heap and the returned `error` value) or a panic with its message. -/
inductive MutResult where
  | ok (heap : Heap) (result : Option Err)
  | panicked (msg : String)
deriving DecidableEq, Repr

/-- The unexported `set(tree, key, err)` of `errortree.go`: nil `err` is a
no-op returning `tree`; a nil `tree` is replaced by `New()` (a fresh
allocation); the entry is stored in the tree's map. -/
def set (heap : Heap) (tree : Option Nat) (key : String) (err : Option Err) :
    Heap × Option Nat :=
  match err with
  | none => (heap, tree)
  | some e =>
    let alloc : Heap × Nat :=
      match tree with
      | none => (heap ++ [New], heap.length)
      | some t => (heap, t)
    let heap₁ := alloc.1
    let t := alloc.2
    let obj := heapGet heap₁ t
    (heap₁.set t { obj with Errors := insertMap (getErrors obj) key e }, some t)

/-- `Set(parent, key, err)` of `errortree.go`: panics when `parent` is
non-nil and not a tree, otherwise delegates to `set` and returns the
resulting tree pointer (or nil). -/
def Set (heap : Heap) (parent : Option Err) (key : String) (err : Option Err) :
    MutResult :=
  let tree := GetTree parent
  if parent.isSome && tree.isNone then
    .panicked "Cannot set error: not an *errortree.Tree."
  else
    match set heap tree key err with
    | (heap', some t) => .ok heap' (some (.treeRef t))
    | (heap', none) => .ok heap' none

/-- `Add(parent, key, err)` of `errortree.go`: panics when `parent` is a tree
that already has `key`, otherwise delegates to `set`.  Note: unlike `Set`, the
source contains no panic for a non-nil non-tree `parent`. -/
def Add (heap : Heap) (parent : Option Err) (key : String) (err : Option Err) :
    MutResult :=
  let tree := GetTree parent
  let keyExists :=
    match tree with
    | some t => (lookupKey (getErrors (heapGet heap t)) key).isSome
    | none => false
  if keyExists then
    .panicked ("Cannot add error: key " ++ key ++ " exists.")
  else
    match set heap tree key err with
    | (heap', some t) => .ok heap' (some (.treeRef t))
    | (heap', none) => .ok heap' none

/-- The unexported `get(tree, returnAnyChild, key, path...)` of
`errortree.go`.  The source looks the key up first and then inspects
`len(path)`; the model matches on `path` first (to obtain usable structural
equations) with the lookup repeated in both branches — the behaviour is
identical. -/
def get (heap : Heap) (returnAnyChild : Bool) :
    Nat → String → List String → Option Err
  | tree, key, [] =>
    match lookupKey (getErrors (heapGet heap tree)) key with
    | none => none
    | some child => some child
  | tree, key, p :: ps =>
    match lookupKey (getErrors (heapGet heap tree)) key with
    | none => none
    | some child =>
      match child with
      | .leaf m => if returnAnyChild then some (.leaf m) else none
      | .treeRef childTree =>
        match get heap returnAnyChild childTree p ps with
        | none => if returnAnyChild then some child else none
        | some childErr => some childErr

/-- `Get(err, key, path...)` of `errortree.go`. -/
def Get (heap : Heap) (err : Option Err) (key : String) (path : List String) :
    Option Err :=
  match GetTree err with
  | none => none
  | some tree => get heap false tree key path

/-- `GetAny(err, key, path...)` of `errortree.go`. -/
def GetAny (heap : Heap) (err : Option Err) (key : String) (path : List String) :
    Option Err :=
  match GetTree err with
  | none => err
  | some tree => get heap true tree key path

/-- The unexported `flatten(tree, delimiter, visited, keyPrefix...)` of
`errortree.go`, with an explicit fuel parameter making the recursion over an
arbitrary pointer graph structurally terminating (fuel-independence for
sufficient fuel is proved below).  A tree already in `visited` contributes an
empty map; otherwise the tree is appended to `visited` and each child is
processed in map-iteration order: subtree entries are re-keyed with
`key ++ delimiter ++ childKey`, leaves stored under their own key.  The
`keyPref` argument mirrors the source's `keyPrefix` parameter, which is
threaded through the recursion but never read. -/
def flatten : Nat → Heap → Nat → String → List Nat → List String →
    List (String × Err)
  | 0, _, _, _, _, _ => []
  | fuel + 1, heap, tree, delimiter, visited, keyPref =>
    if tree ∈ visited then []
    else
      (getErrors (heapGet heap tree)).foldl
        (fun errorMap kv =>
          match kv.2 with
          | .treeRef childTree =>
            (flatten fuel heap childTree delimiter (visited ++ [tree])
                (keyPref ++ [kv.1])).foldl
              (fun em ckv => insertMap em (kv.1 ++ delimiter ++ ckv.1) ckv.2)
              errorMap
          | .leaf m => insertMap errorMap kv.1 (.leaf m))
        []

/-- Number of heap addresses not yet visited: an upper bound for the
remaining recursion depth of `flatten`. -/
def freshCount (heap : Heap) (visited : List Nat) : Nat :=
  ((List.range heap.length).filter (fun i => !visited.contains i)).length

/-- `Flatten(err)` of `errortree.go`: nil for a non-tree, otherwise the
flattening of the tree with its own (lazily initialised) delimiter.  The fuel
`heap.length + 1` exceeds the recursion depth bound, so by the
fuel-independence theorem proved below it computes the limit value of the
recursion. -/
def Flatten (heap : Heap) (err : Option Err) :
    Heap × Option (List (String × Err)) :=
  match GetTree err with
  | none => (heap, none)
  | some tree =>
    let hd := getDelimiter heap tree
    (hd.1, some (flatten (hd.1.length + 1) hd.1 tree hd.2 [] []))

/-- `Keys(err)` of `errortree.go`: nil for a non-tree, otherwise the keys of
the flattened map sorted with `sort.Strings` (modelled by insertion sort; the
keys are pairwise distinct so every correct sort yields this list). -/
def Keys (heap : Heap) (err : Option Err) : Heap × Option (List String) :=
  match GetTree err with
  | none => (heap, none)
  | some tree =>
    let hd := getDelimiter heap tree
    let flattened := flatten (hd.1.length + 1) hd.1 tree hd.2 [] []
    (hd.1, some (sortStrings (flattened.map Prod.fst)))

/-- `(t *Tree) Error()` of `tree.go` for a non-nil receiver: formatter applied
to the flattening of the receiver with its own delimiter. -/
def TreeError (heap : Heap) (t : Nat) : Heap × String :=
  let hf := getFormatter heap t
  let hd := getDelimiter hf.1 t
  (hd.1, applyFormatter hf.2 (flatten (hd.1.length + 1) hd.1 t hd.2 [] []))

/-- Modelled from the spec (the reading of the visited set asserted by the
claim on re-entry): a variant of `flatten` in which the set of visited tree
instances is threaded through the entire traversal — siblings included — so
that an instance visited once anywhere during one call is never re-entered.
The source instead passes its visited list downward only (it covers the
current recursive path); this definition exists solely to compare that
claimed behaviour with the code's. -/
def flattenGlobal : Nat → Heap → Nat → String → List Nat →
    List Nat × List (String × Err)
  | 0, _, _, _, visited => (visited, [])
  | fuel + 1, heap, tree, delimiter, visited =>
    if tree ∈ visited then (visited, [])
    else
      (getErrors (heapGet heap tree)).foldl
        (fun acc kv =>
          match kv.2 with
          | .treeRef childTree =>
            let sub := flattenGlobal fuel heap childTree delimiter acc.1
            (sub.1, sub.2.foldl
              (fun em ckv => insertMap em (kv.1 ++ delimiter ++ ckv.1) ckv.2)
              acc.2)
          | .leaf m => (acc.1, insertMap acc.2 kv.1 (.leaf m)))
        (visited ++ [tree], [])

/-- Modelled from the spec: top-level `Flatten` under the global-visited-set
reading described at `flattenGlobal`. -/
def FlattenGlobal (heap : Heap) (err : Option Err) :
    Heap × Option (List (String × Err)) :=
  match GetTree err with
  | none => (heap, none)
  | some tree =>
    let hd := getDelimiter heap tree
    (hd.1, some (flattenGlobal (hd.1.length + 1) hd.1 tree hd.2 []).2)

/-- Modelled from the spec: follow the path from the already-found value `v`
as far as possible and return the most specific value reached.  A step cannot
be followed when the current value is a leaf while path remains, or when the
next key is absent from the current subtree; in both cases the value found so
far is returned. -/
def resolveMostSpecific (heap : Heap) (v : Err) : List String → Err
  | [] => v
  | k :: ks =>
    match v with
    | .leaf m => .leaf m
    | .treeRef t =>
      match lookupKey (getErrors (heapGet heap t)) k with
      | none => .treeRef t
      | some v' => resolveMostSpecific heap v' ks

/-- Modelled from the spec: the result `GetAny` is claimed to produce on a
tree — absent when the very first key is absent, otherwise the most specific
value along the path. -/
def getAnySpec (heap : Heap) (tree : Nat) (key : String) (path : List String) :
    Option Err :=
  match lookupKey (getErrors (heapGet heap tree)) key with
  | none => none
  | some v => some (resolveMostSpecific heap v path)

/-! Concrete heaps used by the theorems below; the first three reproduce the
trees built in the repository's own tests (`tree_test.go`). -/

/-- A tree whose child `"b"` is the tree itself (`TestFlatten`, simple
recursion). -/
def selfHeap : Heap := [⟨[("a", .leaf "test0"), ("b", .treeRef 0)], ".", none⟩]

/-- Two trees referring to each other (`TestFlatten`, multi-level
recursion). -/
def mutualHeap : Heap :=
  [⟨[("a", .leaf "test0"), ("b", .treeRef 1)], ".", none⟩,
   ⟨[("c", .treeRef 0)], ".", none⟩]

/-- The multi-level tree of `TestFlatten` in which every nested tree carries
a different delimiter (`.`, `:`, `!`, `-`). -/
def mdHeap : Heap :=
  [⟨[("a", .leaf "test0"), ("b", .treeRef 1), ("c", .treeRef 2)], ".", some .simple⟩,
   ⟨[("ba", .leaf "test1"), ("bb", .leaf "test2")], ":", some .simple⟩,
   ⟨[("ca", .treeRef 3), ("cb", .leaf "test5")], "!", some .simple⟩,
   ⟨[("caa", .leaf "test3"), ("cab", .leaf "test4")], "-", some .simple⟩]

/-- `mdHeap` with every `Delimiter` field replaced by a different string and
every `Formatter` field cleared; only the children maps agree with
`mdHeap`. -/
def mdAltHeap : Heap :=
  [⟨[("a", .leaf "test0"), ("b", .treeRef 1), ("c", .treeRef 2)], "@", none⟩,
   ⟨[("ba", .leaf "test1"), ("bb", .leaf "test2")], "%", none⟩,
   ⟨[("ca", .treeRef 3), ("cb", .leaf "test5")], "&", none⟩,
   ⟨[("caa", .leaf "test3"), ("cab", .leaf "test4")], "]", none⟩]

/-- A DAG: the same child instance is attached under the two keys `"x"` and
`"y"` of the root. -/
def dagHeap : Heap :=
  [⟨[("x", .treeRef 1), ("y", .treeRef 1)], ":", some .simple⟩,
   ⟨[("a", .leaf "e")], ":", some .simple⟩]

/-- A tree on which two distinct reachable leaves flatten to the same full
path `"a:b"`: a leaf directly under the key `"a:b"` and a subtree under `"a"`
holding a leaf under `"b"`. -/
def collHeap : Heap :=
  [⟨[("a:b", .leaf "e1"), ("a", .treeRef 1)], ":", some .simple⟩,
   ⟨[("b", .leaf "e2")], ":", some .simple⟩]

/-- A tree with both fields still at their zero values except the children
map (delimiter empty, as in a zero-initialised struct). -/
def lazyHeap : Heap := [⟨[("a", .leaf "m")], "", some .simple⟩]

/-- The tree of `TestGetAny`: a leaf under `"a"` and a subtree under `"c"`
containing a leaf under `"a"`. -/
def getAnyHeap : Heap :=
  [⟨[("a", .leaf "test0"), ("c", .treeRef 1)], ".", none⟩,
   ⟨[("a", .leaf "test1")], "", none⟩]

/-! ## Helper lemmas -/

theorem strLeB_iff : ∀ as bs : List Char, strLeB as bs = true ↔ as ≤ bs := by
  intro as
  induction as with
  | nil => intro bs; simp [strLeB, List.nil_le]
  | cons a as ih =>
    intro bs
    cases bs with
    | nil =>
      simp only [strLeB, Bool.false_eq_true, false_iff]
      intro h
      exact absurd (lt_of_lt_of_le (List.nil_lt_cons a as) h) (lt_irrefl _)
    | cons b bs =>
      simp only [strLeB]
      rcases lt_trichotomy a b with hab | hab | hab
      · simp only [hab, if_pos, true_iff]
        exact le_of_lt (by exact List.Lex.rel hab)
      · subst hab
        rw [if_neg (lt_irrefl a), if_neg (lt_irrefl a), ih bs]
        constructor
        · exact fun h => List.cons_le_cons a h
        · intro h
          by_contra hba
          have hlt : (a :: bs) < (a :: as) := List.Lex.cons (lt_of_not_ge hba)
          exact absurd hlt (not_lt_of_ge h)
      · simp only [if_neg (asymm hab), hab, if_pos, Bool.false_eq_true, false_iff]
        intro h
        exact absurd (by exact List.Lex.rel hab : (b :: bs) < (a :: as)) (not_lt_of_ge h)

theorem strLe_iff (a b : String) : strLe a b = true ↔ a ≤ b := by
  rw [String.le_iff_toList_le]
  exact strLeB_iff a.data b.data

instance : IsTotal String (fun a b => strLe a b = true) :=
  ⟨fun a b => by rw [strLe_iff, strLe_iff]; exact le_total a b⟩

instance : IsTrans String (fun a b => strLe a b = true) :=
  ⟨fun a b c h1 h2 => by
    rw [strLe_iff] at h1 h2 ⊢; exact le_trans h1 h2⟩

theorem sortStrings_perm (l : List String) : List.Perm (sortStrings l) l :=
  List.perm_insertionSort _ l

theorem sortStrings_sorted (l : List String) : (sortStrings l).Sorted (· ≤ ·) :=
  (List.sorted_insertionSort _ l).imp (fun hab => (strLe_iff _ _).mp hab)

theorem getErrors_default : getErrors (default : Tree) = [] := rfl

/-- A tree already on the visited list contributes an empty map. -/
theorem flatten_visited (f : Nat) (heap : Heap) (t : Nat) (d : String)
    (vis : List Nat) (p : List String) (h : t ∈ vis) :
    flatten f heap t d vis p = [] := by
  cases f with
  | zero => rfl
  | succ f => simp [flatten, h]

theorem heapGet_default_of_le :
    ∀ (heap : Heap) (t : Nat), heap.length ≤ t → heapGet heap t = default := by
  intro heap
  induction heap with
  | nil => intro t _; cases t <;> rfl
  | cons obj rest ih =>
    intro t ht
    cases t with
    | zero => simp at ht
    | succ n => exact ih n (by simpa using ht)

theorem freshCount_le (heap : Heap) (vis : List Nat) :
    freshCount heap vis ≤ heap.length := by
  unfold freshCount
  calc ((List.range heap.length).filter (fun i => !vis.contains i)).length
      ≤ (List.range heap.length).length := List.length_filter_le _ _
    _ = heap.length := List.length_range heap.length

theorem freshCount_pos (heap : Heap) (vis : List Nat) (t : Nat)
    (ht : t < heap.length) (hv : t ∉ vis) : 0 < freshCount heap vis := by
  unfold freshCount
  apply List.length_pos_of_mem (a := t)
  rw [List.mem_filter]
  refine ⟨List.mem_range.mpr ht, ?_⟩
  simp [hv]

theorem filter_length_drop_elem :
    ∀ (l : List Nat) (vis : List Nat) (t : Nat), l.Nodup → t ∈ l → t ∉ vis →
      (l.filter (fun i => !(vis ++ [t]).contains i)).length + 1
        = (l.filter (fun i => !vis.contains i)).length := by
  intro l
  induction l with
  | nil => intro vis t _ ht; cases ht
  | cons a l ih =>
    intro vis t hnd hat hv
    rcases List.nodup_cons.mp hnd with ⟨hal, hl⟩
    by_cases heq : a = t
    · subst heq
      have hcong : l.filter (fun i => !(vis ++ [a]).contains i)
          = l.filter (fun i => !vis.contains i) := by
        apply List.filter_congr
        intro i hi
        have hne : i ≠ a := fun he => hal (he ▸ hi)
        simp [hne]
      simp only [List.filter_cons]
      have c1 : (!(vis ++ [a]).contains a) = false := by simp
      have c2 : (!vis.contains a) = true := by simp [hv]
      rw [c1, c2]
      simp only [Bool.false_eq_true, if_neg, if_pos, List.length_cons]
      simp
      exact congrArg List.length (List.filter_congr (fun i hi => by
        have hne : i ≠ a := fun he => hal (he ▸ hi)
        simp [hne]))
    · have htl : t ∈ l := by
        cases hat with
        | head => exact absurd rfl heq
        | tail _ h => exact h
      have hih := ih vis t hl htl hv
      by_cases hav : a ∈ vis
      · simpa [List.filter_cons, hav] using hih
      · simp only [List.filter_cons]
        have c1 : (!(vis ++ [t]).contains a) = true := by simp [hav, heq]
        have c2 : (!vis.contains a) = true := by simp [hav]
        rw [c1, c2]
        simp only [if_pos, List.length_cons]
        omega

/-- Entering a fresh valid address strictly decreases `freshCount`. -/
theorem freshCount_append (heap : Heap) (vis : List Nat) (t : Nat)
    (ht : t < heap.length) (hv : t ∉ vis) :
    freshCount heap (vis ++ [t]) + 1 = freshCount heap vis :=
  filter_length_drop_elem (List.range heap.length) vis t
    (List.nodup_range heap.length) (List.mem_range.mpr ht) hv

/-- Fuel-independence of `flatten`: any two fuels exceeding the number of
unvisited heap addresses produce the same result.  This is the termination
argument of the Go recursion: its depth is bounded because each level enters
a tree instance not yet on the visited path. -/
theorem flatten_fuel_congr :
    ∀ (k : Nat) (heap : Heap) (vis : List Nat) (t : Nat) (d : String)
      (p : List String) (f₁ f₂ : Nat),
      freshCount heap vis ≤ k → k < f₁ → k < f₂ →
      flatten f₁ heap t d vis p = flatten f₂ heap t d vis p := by
  intro k
  induction k with
  | zero =>
    intro heap vis t d p f₁ f₂ hfc h1 h2
    cases f₁ with
    | zero => omega
    | succ a =>
      cases f₂ with
      | zero => omega
      | succ b =>
        by_cases hvis : t ∈ vis
        · simp [flatten, hvis]
        · have ht : heap.length ≤ t := by
            by_contra hlt
            push_neg at hlt
            have := freshCount_pos heap vis t hlt hvis
            omega
          have h0 : getErrors (heapGet heap t) = [] := by
            rw [heapGet_default_of_le heap t ht]
            exact getErrors_default
          simp [flatten, hvis, h0]
  | succ k ih =>
    intro heap vis t d p f₁ f₂ hfc h1 h2
    cases f₁ with
    | zero => omega
    | succ a =>
      cases f₂ with
      | zero => omega
      | succ b =>
        by_cases hvis : t ∈ vis
        · simp [flatten, hvis]
        · by_cases ht : heap.length ≤ t
          · have h0 : getErrors (heapGet heap t) = [] := by
              rw [heapGet_default_of_le heap t ht]
              exact getErrors_default
            simp [flatten, hvis, h0]
          · push_neg at ht
            have hdec := freshCount_append heap vis t ht hvis
            have hrec : ∀ ct p', flatten a heap ct d (vis ++ [t]) p'
                = flatten b heap ct d (vis ++ [t]) p' := by
              intro ct p'
              exact ih heap (vis ++ [t]) ct d p' a b (by omega) (by omega) (by omega)
            simp only [flatten, if_neg hvis]
            apply List.foldl_ext
            intro acc kv _
            obtain ⟨key, val⟩ := kv
            cases val with
            | leaf m => rfl
            | treeRef ct => simp only; rw [hrec ct (p ++ [key])]

/-- `flatten` reads the heap only through the `Errors` fields: two heaps
whose trees carry the same children maps flatten identically, whatever the
`Delimiter` and `Formatter` fields of any (nested) tree hold. -/
theorem flatten_errors_congr :
    ∀ (f : Nat) (heap₁ heap₂ : Heap),
      (∀ i, getErrors (heapGet heap₁ i) = getErrors (heapGet heap₂ i)) →
      ∀ t d vis p, flatten f heap₁ t d vis p = flatten f heap₂ t d vis p := by
  intro f
  induction f with
  | zero => intro heap₁ heap₂ h t d vis p; rfl
  | succ f ih =>
    intro heap₁ heap₂ h t d vis p
    by_cases hvis : t ∈ vis
    · simp [flatten, hvis]
    · simp only [flatten, if_neg hvis]
      rw [h t]
      apply List.foldl_ext
      intro acc kv _
      obtain ⟨key, val⟩ := kv
      cases val with
      | leaf m => rfl
      | treeRef ct => simp only; rw [ih heap₁ heap₂ h ct d (vis ++ [t]) (p ++ [key])]

/-- The source `get` with `returnAnyChild = true` computes exactly the
most-specific-match resolution described by the specification. -/
theorem get_true_eq_getAnySpec (heap : Heap) :
    ∀ (path : List String) (tree : Nat) (key : String),
      get heap true tree key path = getAnySpec heap tree key path := by
  intro path
  induction path with
  | nil =>
    intro tree key
    simp only [get, getAnySpec]
    cases lookupKey (getErrors (heapGet heap tree)) key with
    | none => rfl
    | some child => rfl
  | cons p ps ih =>
    intro tree key
    simp only [get, getAnySpec]
    cases lookupKey (getErrors (heapGet heap tree)) key with
    | none => rfl
    | some child =>
      cases child with
      | leaf m => rfl
      | treeRef ct =>
        dsimp only
        rw [ih ct p]
        cases hl : lookupKey (getErrors (heapGet heap ct)) p with
        | none => simp [getAnySpec, hl, resolveMostSpecific]
        | some v => simp [getAnySpec, hl, resolveMostSpecific]

instance : DecidableRel (fun a b : String × Err => strLe a.1 b.1 = true) :=
  fun a b => inferInstanceAs (Decidable (strLe a.1 b.1 = true))

theorem map_fst_orderedInsert (kv : String × Err) :
    ∀ l : List (String × Err),
      (List.orderedInsert (fun a b => strLe a.1 b.1 = true) kv l).map Prod.fst
        = List.orderedInsert (fun a b => strLe a b = true) kv.1 (l.map Prod.fst) := by
  intro l
  induction l with
  | nil => rfl
  | cons b l ih =>
    simp only [List.orderedInsert, List.map_cons]
    by_cases h : strLe kv.1 b.1 = true
    · rw [if_pos h, if_pos h]
      rfl
    · rw [if_neg h, if_neg h, List.map_cons, ih]

theorem map_fst_insertionSort (m : List (String × Err)) :
    (List.insertionSort (fun a b => strLe a.1 b.1 = true) m).map Prod.fst
      = sortStrings (m.map Prod.fst) := by
  unfold sortStrings
  induction m with
  | nil => rfl
  | cons kv m ih =>
    simp only [List.insertionSort, List.map_cons]
    rw [map_fst_orderedInsert, ih]

theorem lookupKey_of_mem :
    ∀ (m : List (String × Err)), (m.map Prod.fst).Nodup →
      ∀ kv ∈ m, lookupKey m kv.1 = some kv.2 := by
  intro m
  induction m with
  | nil => intro _ kv h; cases h
  | cons a m ih =>
    intro hnd kv hkv
    have hnd' := hnd
    rw [List.map_cons, List.nodup_cons] at hnd'
    rcases hnd' with ⟨ha, hm⟩
    cases hkv with
    | head =>
      unfold lookupKey
      rw [List.find?_cons_of_pos m (by simp)]
      rfl
    | tail _ h =>
      have hne : ¬(a.1 == kv.1) = true := by
        intro he
        rw [beq_iff_eq] at he
        exact ha (he ▸ List.mem_map_of_mem Prod.fst h)
      unfold lookupKey
      rw [List.find?_cons_of_neg m hne]
      exact ih hm kv h

/-- General form of the Simple formatter's output on a duplicate-free map:
the entry count, `" error"` with the plural suffix omitted iff the count is
one, `" occurred:"`, a blank line, and one `* path: message` line per entry,
sorted by path and joined with single newlines. -/
theorem SimpleFormatter_eq_sorted_pairs (m : List (String × Err))
    (hnd : (m.map Prod.fst).Nodup) :
    SimpleFormatter m
      = toString m.length ++ " error" ++ (if m.length = 1 then "" else "s")
        ++ " occurred:\n\n"
        ++ String.intercalate "\n"
          ((List.insertionSort (fun a b => strLe a.1 b.1 = true) m).map
            (fun kv => "* " ++ kv.1 ++ ": " ++ errMessage kv.2)) := by
  have hmap : (sortStrings (m.map Prod.fst)).map
        (fun key => "* " ++ key ++ ": " ++ errMessage ((lookupKey m key).getD (.leaf "")))
      = (List.insertionSort (fun a b => strLe a.1 b.1 = true) m).map
          (fun kv => "* " ++ kv.1 ++ ": " ++ errMessage kv.2) := by
    rw [← map_fst_insertionSort m, List.map_map]
    apply List.map_congr_left
    intro kv hkv
    have hkvm : kv ∈ m := (List.perm_insertionSort _ m).subset hkv
    have hlk := lookupKey_of_mem m hnd kv hkvm
    simp [Function.comp, hlk]
  simp only [SimpleFormatter]
  rw [hmap]
  by_cases h1 : m.length = 1 <;> simp [h1]

/-! ## Claims -/

/-- Claim C1 (code bug): the claim states that `Add(parent, key, err)` fails
fatally on a non-nil non-tree `parent` exactly as `Set` does.  The code does
not: `Add` contains no such check, silently allocates a fresh tree holding
only the new entry and returns it, discarding `parent` — while `Set` panics
on the same input.  This contradicts `Add`'s own documentation ("Otherwise it
behaves like Set") and the intent of the test block commented "Add on
non-tree: should panic" (which mistakenly invokes `Set`). -/
theorem C1_add_non_tree_does_not_panic :
    Add [] (some (Err.leaf "test")) "a" (some (Err.leaf "test0"))
      = MutResult.ok [⟨[("a", Err.leaf "test0")], ":", some .simple⟩]
          (some (Err.treeRef 0))
    ∧ Set [] (some (Err.leaf "test")) "a" (some (Err.leaf "test0"))
      = MutResult.panicked "Cannot set error: not an *errortree.Tree." :=
  ⟨by decide, by decide⟩

/-- Claim C2: `Flatten` terminates on arbitrary (possibly cyclic) child
graphs — formally, the fuelled recursion is fuel-independent once the fuel
exceeds the number of unvisited heap addresses, and the fuel used by
`Flatten` suffices — a tree already entered along the current recursive path
contributes zero entries, and on the self-referencing and
mutually-referencing trees of the repository's tests the result holds exactly
the leaf errors reachable without crossing an already-visited instance. -/
theorem C2_flatten_cycle_termination :
    (∀ (heap : Heap) (t : Nat) (d : String) (vis : List Nat) (p : List String)
        (f₁ f₂ : Nat), freshCount heap vis < f₁ → freshCount heap vis < f₂ →
        flatten f₁ heap t d vis p = flatten f₂ heap t d vis p)
    ∧ (∀ (heap : Heap) (t : Nat) (d : String) (f : Nat), heap.length < f →
        flatten f heap t d [] [] = flatten (heap.length + 1) heap t d [] [])
    ∧ (∀ (f : Nat) (heap : Heap) (t : Nat) (d : String) (vis : List Nat)
        (p : List String), t ∈ vis → flatten f heap t d vis p = [])
    ∧ (Flatten selfHeap (some (.treeRef 0))).2 = some [("a", Err.leaf "test0")]
    ∧ (Flatten mutualHeap (some (.treeRef 0))).2 = some [("a", Err.leaf "test0")] := by
  refine ⟨?_, ?_, ?_, by decide, by decide⟩
  · intro heap t d vis p f₁ f₂ h1 h2
    exact flatten_fuel_congr (freshCount heap vis) heap vis t d p f₁ f₂ le_rfl h1 h2
  · intro heap t d f hf
    exact flatten_fuel_congr heap.length heap [] t d [] f (heap.length + 1)
      (freshCount_le heap []) hf (by omega)
  · intro f heap t d vis p h
    exact flatten_visited f heap t d vis p h

theorem C2_witness :
    flatten 2 selfHeap 0 "." [] [] = flatten 5 selfHeap 0 "." [] []
    ∧ flatten 3 selfHeap 0 "." [0] [] = [] :=
  ⟨C2_flatten_cycle_termination.1 selfHeap 0 "." [] [] 2 5 (by decide) (by decide),
   C2_flatten_cycle_termination.2.2.1 3 selfHeap 0 "." [0] [] (by decide)⟩

/-- Claim C3: every join in a whole `Flatten` (or `Error()`) walk uses the
delimiter of the top-level tree, never the `Delimiter` field carried by any
nested tree: `flatten` reads the heap only through the children maps, so its
result is invariant under arbitrary changes of all `Delimiter` (and
`Formatter`) fields; and on the repository's multi-delimiter test tree
(nested delimiters `:`, `!`, `-` under a top-level `.`) every entry of a
child keyed `k` is re-keyed `k ++ "." ++ childKey` throughout, also in the
`Error()` rendering. -/
theorem C3_flatten_top_delimiter_only :
    (∀ (f : Nat) (heap₁ heap₂ : Heap),
        (∀ i, getErrors (heapGet heap₁ i) = getErrors (heapGet heap₂ i)) →
        ∀ (t : Nat) (d : String) (vis : List Nat) (p : List String),
          flatten f heap₁ t d vis p = flatten f heap₂ t d vis p)
    ∧ (Flatten mdHeap (some (.treeRef 0))).2
        = some [("a", Err.leaf "test0"), ("b.ba", Err.leaf "test1"),
            ("b.bb", Err.leaf "test2"), ("c.ca.caa", Err.leaf "test3"),
            ("c.ca.cab", Err.leaf "test4"), ("c.cb", Err.leaf "test5")]
    ∧ (TreeError mdHeap 0).2
        = "6 errors occurred:\n\n* a: test0\n* b.ba: test1\n* b.bb: test2\n* c.ca.caa: test3\n* c.ca.cab: test4\n* c.cb: test5" :=
  ⟨fun f heap₁ heap₂ h => flatten_errors_congr f heap₁ heap₂ h, by decide, by decide⟩

theorem C3_witness :
    flatten 5 mdHeap 0 "." [] [] = flatten 5 mdAltHeap 0 "." [] [] :=
  C3_flatten_top_delimiter_only.1 5 mdHeap mdAltHeap
    (fun i => by
      match i with
      | 0 => rfl
      | 1 => rfl
      | 2 => rfl
      | 3 => rfl
      | n + 4 => rfl)
    0 "." [] []

/-- Claim C4 counterexample: the claim asserts that one `Flatten` call never
re-enters an instance visited earlier in that same call, including a child
shared under two different parent keys (a DAG).  On `dagHeap` (child `1`
attached under both `"x"` and `"y"`) the code re-enters the shared child and
produces entries under both prefixes, whereas the claimed global-visited
traversal (`FlattenGlobal`, modelled from the claim's words) yields only the
first one — the claim, as stated, is false of the code. -/
theorem C4_counterexample :
    (Flatten dagHeap (some (.treeRef 0))).2
      = some [("x:a", Err.leaf "e"), ("y:a", Err.leaf "e")]
    ∧ (FlattenGlobal dagHeap (some (.treeRef 0))).2 = some [("x:a", Err.leaf "e")]
    ∧ (Flatten dagHeap (some (.treeRef 0))).2
      ≠ (FlattenGlobal dagHeap (some (.treeRef 0))).2 :=
  ⟨by decide, by decide, by decide⟩

/-- Claim C4 amended: the visited set covers only the current recursive path:
an instance already entered along that path is never re-entered (it
contributes an empty map), while an instance shared under two different
parent keys of trees not on a common path is entered once per occurrence, as
on `dagHeap`. -/
theorem C4_amended_path_visited_only :
    (∀ (f : Nat) (heap : Heap) (t : Nat) (d : String) (vis : List Nat)
        (p : List String), t ∈ vis → flatten f heap t d vis p = [])
    ∧ (Flatten dagHeap (some (.treeRef 0))).2
      = some [("x:a", Err.leaf "e"), ("y:a", Err.leaf "e")] :=
  ⟨fun f heap t d vis p h => flatten_visited f heap t d vis p h, by decide⟩

theorem C4_witness : flatten 1 dagHeap 1 ":" [1] [] = [] :=
  C4_amended_path_visited_only.1 1 dagHeap 1 ":" [1] [] (by decide)

/-- Claim C5 counterexample: the claim asserts that the read traversals leave
the tree's delimiter field unchanged.  `Flatten` on a tree whose `Delimiter`
is still the zero value `""` lazily writes the default delimiter `":"` into
the struct, so the heap after the call differs from the heap before. -/
theorem C5_counterexample :
    (Flatten lazyHeap (some (.treeRef 0))).1 ≠ lazyHeap
    ∧ (Flatten lazyHeap (some (.treeRef 0))).1
      = [⟨[("a", Err.leaf "m")], ":", some .simple⟩] :=
  ⟨by decide, by decide⟩

/-- Claim C5 amended: the read traversals mutate nothing except the lazy
first-access initialisation of defaulted fields — on a tree whose delimiter
is already non-empty, `Flatten` and `Keys` return the heap unchanged, and on
a non-tree argument they change nothing either.  (`Get`/`GetAny` touch no
delimiter or formatter field; their only write in the source is the
observationally invisible nil-to-empty children-map initialisation, which the
model identifies away, so they are heap-pure here.) -/
theorem C5_amended_reads_preserve_initialized_trees :
    (∀ (heap : Heap) (e : Option Err) (t : Nat), GetTree e = some t →
        (heapGet heap t).Delimiter ≠ "" →
        (Flatten heap e).1 = heap ∧ (Keys heap e).1 = heap)
    ∧ (∀ (heap : Heap) (e : Option Err), GetTree e = none →
        (Flatten heap e).1 = heap ∧ (Keys heap e).1 = heap) := by
  constructor
  · intro heap e t hge hd
    have he : e = some (.treeRef t) := by
      cases e with
      | none => simp [GetTree] at hge
      | some v =>
        cases v with
        | leaf m => simp [GetTree] at hge
        | treeRef u =>
          simp [GetTree] at hge
          rw [hge]
    subst he
    have hdel : getDelimiter heap t = (heap, (heapGet heap t).Delimiter) := by
      unfold getDelimiter
      rw [if_neg hd]
    constructor
    · simp [Flatten, GetTree, hdel]
    · simp [Keys, GetTree, hdel]
  · intro heap e hge
    cases e with
    | none => exact ⟨rfl, rfl⟩
    | some v =>
      cases v with
      | leaf m => exact ⟨rfl, rfl⟩
      | treeRef u => simp [GetTree] at hge

theorem C5_witness :
    (Flatten mdHeap (some (Err.treeRef 0))).1 = mdHeap
    ∧ (Keys mdHeap (some (Err.treeRef 0))).1 = mdHeap :=
  C5_amended_reads_preserve_initialized_trees.1 mdHeap (some (Err.treeRef 0)) 0
    rfl (by decide)

/-- Claim C6 counterexample: the claim asserts that `Set`/`Add` with a nil
`err` are a no-op for every parent, with no fatal failure.  But `Set` checks
the non-tree contract before the nil-`err` shortcut: on a non-nil non-tree
parent it panics even though `err` is nil. -/
theorem C6_counterexample :
    Set [] (some (Err.leaf "boom")) "a" none
      = MutResult.panicked "Cannot set error: not an *errortree.Tree." :=
  by decide

/-- Claim C6 amended: with nil `err`, `Set` returns `parent` unchanged (and
mutates nothing) when `parent` is nil or a tree, but still panics when
`parent` is a non-nil non-tree; `Add` with nil `err` returns `parent`
unchanged when `parent` is nil or a tree without the key, panics when
`parent` is a tree already holding the key, and returns nil (dropping the
parent) when `parent` is a non-tree error. -/
theorem C6_amended_nil_err :
    ∀ (heap : Heap) (parent : Option Err) (key : String),
      Set heap parent key none
        = (match parent with
           | none => MutResult.ok heap none
           | some (.treeRef t) => MutResult.ok heap (some (.treeRef t))
           | some (.leaf _) =>
             MutResult.panicked "Cannot set error: not an *errortree.Tree.")
      ∧ Add heap parent key none
        = (match parent with
           | some (.treeRef t) =>
             if (lookupKey (getErrors (heapGet heap t)) key).isSome then
               MutResult.panicked ("Cannot add error: key " ++ key ++ " exists.")
             else MutResult.ok heap (some (.treeRef t))
           | _ => MutResult.ok heap none) := by
  intro heap parent key
  constructor
  · match parent with
    | none => rfl
    | some (.treeRef t) => rfl
    | some (.leaf m) => rfl
  · match parent with
    | none => rfl
    | some (.leaf m) => rfl
    | some (.treeRef t) =>
      by_cases h : (lookupKey (getErrors (heapGet heap t)) key).isSome
      · simp [Add, GetTree, h]
      · simp [Add, GetTree, h, set]

/-- Claim C7: `Keys` is absent exactly on non-trees and otherwise is the
`sort.Strings`-sorted list of the keys of `Flatten`: the two projections
agree under the sort, `Keys` of a non-tree is nil, and every produced key
list is alphabetically sorted and a permutation of `Flatten`'s keys. -/
theorem C7_keys_sorted_flatten :
    ∀ (heap : Heap) (e : Option Err),
      ((Keys heap e).2 = (Flatten heap e).2.map (fun m => sortStrings (m.map Prod.fst)))
      ∧ (GetTree e = none → (Keys heap e).2 = none)
      ∧ (∀ ks, (Keys heap e).2 = some ks →
          ks.Sorted (· ≤ ·)
          ∧ ∀ m, (Flatten heap e).2 = some m → List.Perm ks (m.map Prod.fst)) := by
  intro heap e
  refine ⟨?_, ?_, ?_⟩
  · cases e with
    | none => rfl
    | some v =>
      cases v with
      | leaf m => rfl
      | treeRef t => rfl
  · intro h
    cases e with
    | none => rfl
    | some v =>
      cases v with
      | leaf m => rfl
      | treeRef t => simp [GetTree] at h
  · intro ks hks
    cases e with
    | none => simp [Keys, GetTree] at hks
    | some v =>
      cases v with
      | leaf m => simp [Keys, GetTree] at hks
      | treeRef t =>
        have hkeq : (Keys heap (some (.treeRef t))).2
            = some (sortStrings ((flatten ((getDelimiter heap t).1.length + 1)
                (getDelimiter heap t).1 t (getDelimiter heap t).2 [] []).map Prod.fst)) := rfl
        rw [hkeq] at hks
        have hks' := (Option.some.inj hks).symm
        subst hks'
        refine ⟨sortStrings_sorted _, ?_⟩
        intro m hm
        have hfeq : (Flatten heap (some (.treeRef t))).2
            = some (flatten ((getDelimiter heap t).1.length + 1)
                (getDelimiter heap t).1 t (getDelimiter heap t).2 [] []) := rfl
        rw [hfeq] at hm
        rw [← Option.some.inj hm]
        exact sortStrings_perm _

theorem C7_witness :
    ["a", "b.ba", "b.bb", "c.ca.caa", "c.ca.cab", "c.cb"].Sorted (· ≤ ·)
    ∧ List.Perm ["a", "b.ba", "b.bb", "c.ca.caa", "c.ca.cab", "c.cb"]
        ((flatten 5 mdHeap 0 "." [] []).map Prod.fst) := by
  have h := (C7_keys_sorted_flatten mdHeap (some (Err.treeRef 0))).2.2
    ["a", "b.ba", "b.bb", "c.ca.caa", "c.ca.cab", "c.cb"] (by decide)
  exact ⟨h.1, h.2 (flatten 5 mdHeap 0 "." [] []) (by decide)⟩

/-- Claim C8: `GetAny` returns its argument unchanged on a non-tree (also a
nil error), and on a tree computes exactly the specification's
most-specific-match resolution: absent when the very first key is absent,
otherwise the deepest value reached before the path can no longer be
followed.  The concrete conjuncts replay the `TestGetAny` cases: a nested
miss below an existing subtree returns that subtree; a remaining path below a
leaf returns the leaf; a top-level miss is absent. -/
theorem C8_getAny_most_specific :
    (∀ (heap : Heap) (e : Option Err) (key : String) (path : List String),
        GetAny heap e key path
          = (match GetTree e with
             | none => e
             | some t => getAnySpec heap t key path))
    ∧ GetAny getAnyHeap (some (.leaf "test")) "test" [] = some (.leaf "test")
    ∧ GetAny getAnyHeap (some (.treeRef 0)) "c" ["b"] = some (.treeRef 1)
    ∧ GetAny getAnyHeap (some (.treeRef 0)) "a" ["b"] = some (.leaf "test0")
    ∧ GetAny getAnyHeap (some (.treeRef 0)) "c" ["a"] = some (.leaf "test1")
    ∧ GetAny getAnyHeap (some (.treeRef 0)) "b" [] = none :=
  ⟨fun heap e key path => by
    cases e with
    | none => rfl
    | some v =>
      cases v with
      | leaf m => rfl
      | treeRef t => simp [GetAny, GetTree, get_true_eq_getAnySpec],
   by decide, by decide, by decide, by decide, by decide⟩

/-- Claim C9: the Simple formatter renders exactly the documented shape: on
any duplicate-free flattened map, the entry count, `" error"` with the plural
suffix omitted iff the count is one, `" occurred:"` and a blank line, then
one `* path: message` line per entry sorted by path and joined with single
newlines; the key sort is alphabetically sorted; and the two concrete
examples of the specification render accordingly. -/
theorem C9_simple_formatter :
    (∀ m : List (String × Err), (m.map Prod.fst).Nodup →
        SimpleFormatter m
          = toString m.length ++ " error" ++ (if m.length = 1 then "" else "s")
            ++ " occurred:\n\n"
            ++ String.intercalate "\n"
              ((List.insertionSort (fun a b => strLe a.1 b.1 = true) m).map
                (fun kv => "* " ++ kv.1 ++ ": " ++ errMessage kv.2)))
    ∧ (∀ m : List (String × Err), (sortStrings (m.map Prod.fst)).Sorted (· ≤ ·))
    ∧ SimpleFormatter [("key", Err.leaf "value")] = "1 error occurred:\n\n* key: value"
    ∧ SimpleFormatter [("b", Err.leaf "a"), ("c", Err.leaf "b"), ("a", Err.leaf "c")]
        = "3 errors occurred:\n\n* a: c\n* b: a\n* c: b" :=
  ⟨fun m hnd => SimpleFormatter_eq_sorted_pairs m hnd,
   fun m => sortStrings_sorted (m.map Prod.fst), by decide, by decide⟩

theorem C9_witness :
    SimpleFormatter [("b", Err.leaf "a"), ("c", Err.leaf "b"), ("a", Err.leaf "c")]
      = toString ([("b", Err.leaf "a"), ("c", Err.leaf "b"), ("a", Err.leaf "c")] : List (String × Err)).length
        ++ " error"
        ++ (if ([("b", Err.leaf "a"), ("c", Err.leaf "b"), ("a", Err.leaf "c")] : List (String × Err)).length = 1 then "" else "s")
        ++ " occurred:\n\n"
        ++ String.intercalate "\n"
          ((List.insertionSort (fun a b => strLe a.1 b.1 = true)
              [("b", Err.leaf "a"), ("c", Err.leaf "b"), ("a", Err.leaf "c")]).map
            (fun kv => "* " ++ kv.1 ++ ": " ++ errMessage kv.2)) :=
  C9_simple_formatter.1 [("b", Err.leaf "a"), ("c", Err.leaf "b"), ("a", Err.leaf "c")]
    (by decide)

/-- Claim C10: flattened path keys can collide and silently drop entries.  On
`collHeap` (delimiter `":"`, a leaf `e1` directly under the key `"a:b"` and a
subtree under `"a"` holding a leaf `e2` under `"b"`) both leaves map to the
full path `"a:b"`; the flattened map has a single entry — strictly fewer than
the two distinct reachable leaves — because the subtree's entry overwrites
the direct one. -/
theorem C10_path_collision_drops_entries :
    (Flatten collHeap (some (.treeRef 0))).2 = some [("a:b", Err.leaf "e2")]
    ∧ (Flatten collHeap (some (.treeRef 0))).2.map List.length = some 1
    ∧ ("a:b", Err.leaf "e1") ∈ getErrors (heapGet collHeap 0)
    ∧ ("a", Err.treeRef 1) ∈ getErrors (heapGet collHeap 0)
    ∧ ("b", Err.leaf "e2") ∈ getErrors (heapGet collHeap 1)
    ∧ Err.leaf "e1" ≠ Err.leaf "e2" :=
  ⟨by decide, by decide, by decide, by decide, by decide, by decide⟩

end Errortree
